import Mathlib

/-! Formal model of the algorithmic kernels of the summerschool2016 notebooks:
the Metropolis sampler, and the character-bigram language model
(numerify, learn_bigram, log_likelihood_bigram).

Text strings are modelled as lists of byte values (Python 2 `str`), so the
character predicates below are the ASCII/byte-level ones. Matrices are total
functions on integer indices; the program only ever accesses indices 0..26,
which is proved below. Floating-point reals are modelled by exact rationals
(for the matrix arithmetic) and by real numbers (for the logarithm). -/

/-- Python 2 byte-string `c.isalpha()`: true exactly for the ASCII letters. -/
def isalpha (c : ℕ) : Bool :=
  decide ((65 ≤ c ∧ c ≤ 90) ∨ (97 ≤ c ∧ c ≤ 122))

/-- Python 2 byte-string `c.isspace()`: true exactly for the six ASCII
whitespace bytes (space, tab, newline, vertical tab, form feed, carriage
return). -/
def isspace (c : ℕ) : Bool :=
  decide (c = 32 ∨ c = 9 ∨ c = 10 ∨ c = 11 ∨ c = 12 ∨ c = 13)

/-- Python 2 `c.lower()` on a single byte: maps the uppercase ASCII letters to
lowercase, identity elsewhere. -/
def lowerChar (c : ℕ) : ℕ :=
  if 65 ≤ c ∧ c ≤ 90 then c + 32 else c

/-- The notebook's `numerify`: keep the bytes passing `isalpha` or `isspace`
(in order), and map each kept byte `c` to `max(1 + ord(c.lower()) - ord('a'), 0)`. -/
def numerify (s : List ℕ) : List ℤ :=
  (s.filter (fun c => isalpha c || isspace c)).map
    (fun c => max (1 + (lowerChar c : ℤ) - 97) 0)

/-- The adjacent pairs `zip(coded[:-1], coded[1:])` iterated by the counting
and scoring loops. -/
def pairsOf (l : List ℤ) : List (ℤ × ℤ) :=
  l.dropLast.zip l.tail

/-- One step of the accumulation loop `joint[prev, this] += 1` in
`learn_bigram`, as an update of the matrix. -/
def addPair (m : ℤ → ℤ → ℚ) (pr : ℤ × ℤ) : ℤ → ℤ → ℚ :=
  fun i j => if pr.1 = i ∧ pr.2 = j then m i j + 1 else m i j

/-- The `joint` matrix of `learn_bigram`: `np.zeros((27,27))` followed by the
accumulation loop over the adjacent pairs of the coded sequence. -/
def jointOf (l : List ℤ) : ℤ → ℤ → ℚ :=
  (pairsOf l).foldl addPair (fun _ _ => 0)

/-- Matrix transpose, `m.T`. -/
def transposeM (m : ℤ → ℤ → ℚ) : ℤ → ℤ → ℚ :=
  fun i j => m j i

/-- `np.sum(m, axis=0)` of a 27x27 matrix: the sum of column `j` over the 27
row indices. -/
def colSum (m : ℤ → ℤ → ℚ) (j : ℤ) : ℚ :=
  ((List.range 27).map (fun i => m (i : ℤ) j)).sum

/-- Sum of row `i` of a 27x27 matrix over the 27 column indices. -/
def rowSum (m : ℤ → ℤ → ℚ) (i : ℤ) : ℚ :=
  ((List.range 27).map (fun j => m i (j : ℤ))).sum

/-- The additive constant `1e-6` used in the normalization of `learn_bigram`. -/
def epsNorm : ℚ := 1 / 1000000

/-- The matrix `bigram = joint.T / (np.sum(joint, axis=0) + 1e-6)` of
`learn_bigram`; numpy broadcasting divides entry `(i, j)` of `joint.T` by
entry `j` of the axis-0 sum vector. -/
def bigramOf (l : List ℤ) : ℤ → ℤ → ℚ :=
  fun i j => transposeM (jointOf l) i j / (colSum (jointOf l) j + epsNorm)

/-- The notebook's `learn_bigram`: code the string with `numerify`, build the
`joint` count matrix, normalize, and `return bigram.T, joint.T`. -/
def learn_bigram (s : List ℕ) : (ℤ → ℤ → ℚ) × (ℤ → ℤ → ℚ) :=
  (transposeM (bigramOf (numerify s)), transposeM (jointOf (numerify s)))

/-- The additive constant `1e-8` used inside the logarithm of
`log_likelihood_bigram`. -/
noncomputable def epsLog : ℝ := 1 / 100000000

/-- The notebook's `log_likelihood_bigram`: code the string with `numerify`
and sum `log(bigram[prev, this] + 1e-8)` over the adjacent pairs. -/
noncomputable def log_likelihood_bigram (s : List ℕ) (bigram : ℤ → ℤ → ℝ) : ℝ :=
  ((pairsOf (numerify s)).map (fun pr => Real.log (bigram pr.1 pr.2 + epsLog))).sum

/-- Number of adjacent pairs of the coded sequence equal to `(a, b)`, as a
rational count (the value a single cell of the count matrix is expected to
hold). -/
def countPairs (l : List ℤ) (a b : ℤ) : ℚ :=
  (((pairsOf l).filter (fun pr => decide (pr.1 = a ∧ pr.2 = b))).length : ℚ)

/-- The index a kept character is expected to receive, as the spec describes
it: whitespace to 0, letters (after case folding) to their alphabet position
1..26. -/
def specIndex (c : ℕ) : ℤ :=
  if isspace c then 0 else (lowerChar c : ℤ) - 96

section Metropolis

variable {α : Type} [AddMonoid α]

/-- State of the `metropolis` loop: the current position `x`, the list
`samples` of accepted positions, and the list `rejected` of rejected
proposals, both in append order. -/
structure MetState (α : Type) where
  x : α
  samples : List α
  rejected : List α

/-- One iteration of the `metropolis` loop: form the candidate
`x_prime = x + q()`; accept it outright if `p(x_prime) > p(x)`, otherwise
accept it exactly when the uniform draw `u` is below the acceptance fraction
`p(x_prime)/p(x)`; on rejection append the candidate to `rejected` and leave
`x` unchanged. -/
def metropolisStep (p : α → ℚ) (u : ℚ) (off : α) (s : MetState α) : MetState α :=
  if p (s.x + off) > p s.x then
    ⟨s.x + off, s.samples ++ [s.x + off], s.rejected⟩
  else if u < p (s.x + off) / p s.x then
    ⟨s.x + off, s.samples ++ [s.x + off], s.rejected⟩
  else
    ⟨s.x, s.samples, s.rejected ++ [s.x + off]⟩

/-- The state of the `metropolis` loop after `n` iterations, with the stream
`q` of proposal offsets and the stream `u` of uniform draws made explicit
(iteration `i` consumes `q i`, and `u i` when it reaches the else branch). -/
def metropolisRun (p : α → ℚ) (q : ℕ → α) (u : ℕ → ℚ) (xinit : α) : ℕ → MetState α
  | 0 => ⟨xinit, [], []⟩
  | n + 1 => metropolisStep p (u n) (q n) (metropolisRun p q u xinit n)

/-- The notebook's `metropolis`: run `n` iterations and return the pair of the
accepted samples and the rejected proposals. -/
def metropolis (p : α → ℚ) (q : ℕ → α) (u : ℕ → ℚ) (xinit : α) (n : ℕ) :
    List α × List α :=
  ((metropolisRun p q u xinit n).samples, (metropolisRun p q u xinit n).rejected)

/-- The acceptance rule of one iteration: unconditional improvement, or a
uniform draw below the ratio `p(candidate)/p(current)`. -/
def acceptRule (p : α → ℚ) (x : α) (u : ℚ) (xc : α) : Prop :=
  p xc > p x ∨ u < p xc / p x

end Metropolis

/-! Helper lemmas -/

/-- On every kept byte, the source's coding expression agrees with the
spec-described index. -/
lemma keep_code (c : ℕ) (h : (isalpha c || isspace c) = true) :
    max (1 + (lowerChar c : ℤ) - 97) 0 = specIndex c := by
  simp only [isalpha, isspace, Bool.or_eq_true, decide_eq_true_eq] at h
  unfold specIndex lowerChar isspace
  simp only [decide_eq_true_eq]
  split_ifs <;> push_cast <;> omega

/-- Unfolding of the count-accumulation fold: the resulting cell holds the
initial cell plus the number of scanned pairs equal to the cell's index. -/
lemma foldl_addPair_apply (ps : List (ℤ × ℤ)) (m : ℤ → ℤ → ℚ) (i j : ℤ) :
    ps.foldl addPair m i j =
      m i j + ((ps.filter (fun pr => decide (pr.1 = i ∧ pr.2 = j))).length : ℚ) := by
  induction ps generalizing m with
  | nil => simp
  | cons pr tl ih =>
    rw [List.foldl_cons, ih]
    by_cases h : pr.1 = i ∧ pr.2 = j
    · simp only [addPair, if_pos h, List.filter_cons, h, and_self, decide_True,
        if_true, List.length_cons]
      push_cast
      ring
    · simp [addPair, if_neg h, List.filter_cons, h]

/-- Each cell of the joint count matrix is the number of adjacent pairs with
that cell's index. -/
lemma jointOf_apply (l : List ℤ) (i j : ℤ) : jointOf l i j = countPairs l i j := by
  unfold jointOf countPairs
  rw [foldl_addPair_apply]
  simp

/-- A coded sequence of fewer than two symbols yields no adjacent pairs. -/
lemma pairsOf_eq_nil_of_short (l : List ℤ) (h : l.length < 2) : pairsOf l = [] := by
  cases l with
  | nil => rfl
  | cons a tl =>
    cases tl with
    | nil => rfl
    | cons b tl2 =>
      simp only [List.length_cons] at h
      omega

/-- A sum of real terms each at least `c` is at least `length * c`. -/
lemma mul_length_le_sum_map {β : Type} (l : List β) (g : β → ℝ) (c : ℝ)
    (h : ∀ b ∈ l, c ≤ g b) : (l.length : ℝ) * c ≤ (l.map g).sum := by
  induction l with
  | nil => simp
  | cons a tl ih =>
    have h1 : c ≤ g a := h a (List.mem_cons_self a tl)
    have h2 := ih (fun b hb => h b (List.mem_cons_of_mem a hb))
    simp only [List.map_cons, List.sum_cons, List.length_cons]
    push_cast
    nlinarith

/-! Theorems about the bigram estimator -/

/-- C7: numerify keeps exactly the bytes that are (case-insensitive) letters
or whitespace, in order, and maps each kept byte to its index in the
27-symbol alphabet: whitespace to 0, letters after case folding to 1..26. -/
theorem numerify_filter_map (s : List ℕ) :
    numerify s = (s.filter (fun c => isalpha c || isspace c)).map specIndex ∧
    (∀ c, isspace c = true → specIndex c = 0) ∧
    (∀ c, isalpha c = true → 1 ≤ specIndex c ∧ specIndex c ≤ 26) := by
  refine ⟨?_, ?_, ?_⟩
  · unfold numerify
    apply List.map_congr_left
    intro c hc
    exact keep_code c (List.mem_filter.mp hc).2
  · intro c h
    simp [specIndex, h]
  · intro c h
    simp only [isalpha, decide_eq_true_eq] at h
    unfold specIndex lowerChar isspace
    simp only [decide_eq_true_eq]
    split_ifs <;> push_cast <;> omega

/-- C10: on ASCII input every coded symbol produced by numerify lies in 0..26,
so every adjacent-pair index used by learn_bigram and log_likelihood_bigram to
access their 27x27 matrices is within bounds. -/
theorem numerify_indices_in_range (s : List ℕ) (hascii : ∀ c ∈ s, c < 128) :
    (∀ x ∈ numerify s, 0 ≤ x ∧ x ≤ 26) ∧
    (∀ pr ∈ pairsOf (numerify s),
      (0 ≤ pr.1 ∧ pr.1 ≤ 26) ∧ (0 ≤ pr.2 ∧ pr.2 ≤ 26)) := by
  have hmem : ∀ x ∈ numerify s, 0 ≤ x ∧ x ≤ 26 := by
    intro x hx
    unfold numerify at hx
    rcases List.mem_map.mp hx with ⟨c, hc, rfl⟩
    have hk := (List.mem_filter.mp hc).2
    simp only [isalpha, isspace, Bool.or_eq_true, decide_eq_true_eq] at hk
    unfold lowerChar
    split_ifs <;> constructor <;> push_cast <;> omega
  refine ⟨hmem, ?_⟩
  rintro ⟨a, b⟩ hpr
  unfold pairsOf at hpr
  obtain ⟨ha, hb⟩ := List.of_mem_zip hpr
  exact ⟨hmem a (List.dropLast_sublist _ |>.mem ha), hmem b (List.mem_of_mem_tail hb)⟩

/-- C8: an input with fewer than two filtered symbols yields an all-zero count
matrix, and a zero log-likelihood under every model matrix. -/
theorem learn_bigram_short_input (s : List ℕ) (B : ℤ → ℤ → ℝ)
    (h : (numerify s).length < 2) :
    (∀ i j, (learn_bigram s).2 i j = 0) ∧ log_likelihood_bigram s B = 0 := by
  have hp : pairsOf (numerify s) = [] := pairsOf_eq_nil_of_short _ h
  constructor
  · intro i j
    show transposeM (jointOf (numerify s)) i j = 0
    unfold transposeM jointOf
    rw [hp]
    rfl
  · unfold log_likelihood_bigram
    rw [hp]
    rfl

/-- C9: with a nonnegative model matrix, every summed term of the
log-likelihood is the logarithm of a strictly positive quantity (at least the
epsilon 1e-8), and the total is bounded below by pairs * log(1e-8) — hence
finite, never negative infinity. -/
theorem log_likelihood_finite (s : List ℕ) (B : ℤ → ℤ → ℝ)
    (hB : ∀ i j, 0 ≤ B i j) :
    (∀ pr ∈ pairsOf (numerify s), 0 < B pr.1 pr.2 + epsLog) ∧
    ((pairsOf (numerify s)).length : ℝ) * Real.log epsLog ≤
      log_likelihood_bigram s B := by
  have heps : (0 : ℝ) < epsLog := by norm_num [epsLog]
  constructor
  · intro pr _
    have := hB pr.1 pr.2
    linarith
  · unfold log_likelihood_bigram
    apply mul_length_le_sum_map
    intro pr _
    apply Real.log_le_log heps
    have := hB pr.1 pr.2
    linarith

/-- C2 counterexample: on the text "ab" the returned count matrix does NOT
hold, at (index of 'a', index of 'b'), the number of adjacent pairs whose
first symbol is 'a' and second is 'b' (that count is 1; the cell holds 0). -/
theorem learn_bigram_count_indexing_cex :
    ¬ ((learn_bigram [97, 98]).2 1 2 = countPairs (numerify [97, 98]) 1 2) := by
  norm_num [learn_bigram, transposeM, jointOf, pairsOf, numerify, addPair,
    countPairs, isalpha, isspace, lowerChar, List.filter]

/-- C2 amended: the count matrix returned by learn_bigram is transposed — it
is indexed by (current symbol, previous symbol): the cell (i, j) holds the
number of adjacent pairs whose first symbol has index j and second has index
i. On the text "aa" it still has the single nonzero cell 1 at
(index of 'a', index of 'a'). -/
theorem learn_bigram_count_indexing :
    (∀ (s : List ℕ) (i j : ℤ), (learn_bigram s).2 i j = countPairs (numerify s) j i) ∧
    ((learn_bigram [97, 97]).2 1 1 = 1 ∧
      ∀ i j : ℤ, ¬ (i = 1 ∧ j = 1) → (learn_bigram [97, 97]).2 i j = 0) := by
  have hgen : ∀ (s : List ℕ) (i j : ℤ),
      (learn_bigram s).2 i j = countPairs (numerify s) j i := by
    intro s i j
    show transposeM (jointOf (numerify s)) i j = _
    unfold transposeM
    exact jointOf_apply _ _ _
  have hnum : numerify [97, 97] = [1, 1] := by decide
  refine ⟨hgen, ?_, ?_⟩
  · rw [hgen, hnum]
    norm_num [countPairs, pairsOf, List.filter]
  · intro i j hij
    rw [hgen, hnum]
    have hcond : ¬ ((1 : ℤ) = j ∧ (1 : ℤ) = i) := by
      rintro ⟨h1, h2⟩
      exact hij ⟨h2.symm, h1.symm⟩
    simp [countPairs, pairsOf, List.filter, hcond]

/-- C1 refuted on the code: the text "ab" has a nonempty filtered sequence
(two symbols), yet row 1 (symbol 'a') of the returned conditional probability
matrix sums to exactly 1000000, not approximately 1: the normalization divides
the counts of row 'a' by the number of pairs ENDING in 'a' (zero) plus 1e-6. -/
theorem learn_bigram_row_sum_not_one :
    (numerify [97, 98]).length = 2 ∧
    rowSum ((learn_bigram [97, 98]).1) 1 = 1000000 := by
  constructor
  · decide
  · norm_num [rowSum, learn_bigram, bigramOf, transposeM, colSum, jointOf,
      pairsOf, numerify, addPair, epsNorm, isalpha, isspace, lowerChar,
      List.range_succ]

/-- Appending a single element makes it the (default-valued) last element. -/
lemma getLastD_snoc {β : Type} (l : List β) (a d : β) :
    (l ++ [a]).getLastD d = a := by
  induction l generalizing d with
  | nil => rfl
  | cons b tl ih =>
    rw [List.cons_append, List.getLastD_cons]
    exact ih b

section MetropolisTheorems

variable {α : Type} [AddMonoid α]

/-- C3: after n iterations the accepted and rejected sequences returned by
metropolis have combined length exactly n. -/
theorem metropolis_length_sum (p : α → ℚ) (q : ℕ → α) (u : ℕ → ℚ) (x0 : α)
    (n : ℕ) :
    (metropolis p q u x0 n).1.length + (metropolis p q u x0 n).2.length = n := by
  have haux : ∀ m, (metropolisRun p q u x0 m).samples.length +
      (metropolisRun p q u x0 m).rejected.length = m := by
    intro m
    induction m with
    | zero => rfl
    | succ k ih =>
      have hrun : metropolisRun p q u x0 (k + 1) =
          metropolisStep p (u k) (q k) (metropolisRun p q u x0 k) := rfl
      rw [hrun]
      unfold metropolisStep
      split_ifs <;> simp only [List.length_append, List.length_cons,
        List.length_nil] <;> omega
  exact haux n

/-- C4: in every iteration, under a strictly positive target density, the
candidate (current position plus offset) is appended to the accepted samples
and becomes the current position exactly when the acceptance rule holds
(unconditional improvement, or uniform draw below the ratio); otherwise it is
appended unchanged to the rejected list. -/
theorem metropolis_accept_rule (p : α → ℚ) (q : ℕ → α) (u : ℕ → ℚ) (x0 : α)
    (hpos : ∀ z, 0 < p z) (i : ℕ) :
    (acceptRule p (metropolisRun p q u x0 i).x (u i)
        ((metropolisRun p q u x0 i).x + q i) →
      metropolisRun p q u x0 (i + 1) =
        ⟨(metropolisRun p q u x0 i).x + q i,
          (metropolisRun p q u x0 i).samples ++
            [(metropolisRun p q u x0 i).x + q i],
          (metropolisRun p q u x0 i).rejected⟩) ∧
    (¬ acceptRule p (metropolisRun p q u x0 i).x (u i)
        ((metropolisRun p q u x0 i).x + q i) →
      metropolisRun p q u x0 (i + 1) =
        ⟨(metropolisRun p q u x0 i).x,
          (metropolisRun p q u x0 i).samples,
          (metropolisRun p q u x0 i).rejected ++
            [(metropolisRun p q u x0 i).x + q i]⟩) := by
  have hrun : metropolisRun p q u x0 (i + 1) =
      metropolisStep p (u i) (q i) (metropolisRun p q u x0 i) := rfl
  constructor
  · intro h
    rw [hrun]
    unfold metropolisStep
    by_cases h1 : p ((metropolisRun p q u x0 i).x + q i) >
        p (metropolisRun p q u x0 i).x
    · rw [if_pos h1]
    · rw [if_neg h1, if_pos (h.resolve_left h1)]
  · intro h
    simp only [acceptRule, not_or] at h
    rw [hrun]
    unfold metropolisStep
    rw [if_neg h.1, if_neg h.2]

/-- C5: a rejected proposal leaves the current position (and the accepted
list) unchanged, and at every point of the run the current position equals the
last accepted sample, or the initial position while none is accepted. -/
theorem metropolis_position_invariant (p : α → ℚ) (q : ℕ → α) (u : ℕ → ℚ)
    (x0 : α) :
    (∀ i, ¬ acceptRule p (metropolisRun p q u x0 i).x (u i)
        ((metropolisRun p q u x0 i).x + q i) →
      (metropolisRun p q u x0 (i + 1)).x = (metropolisRun p q u x0 i).x ∧
      (metropolisRun p q u x0 (i + 1)).samples =
        (metropolisRun p q u x0 i).samples ∧
      (metropolisRun p q u x0 (i + 1)).rejected =
        (metropolisRun p q u x0 i).rejected ++
          [(metropolisRun p q u x0 i).x + q i]) ∧
    (∀ n, (metropolisRun p q u x0 n).x =
      (metropolisRun p q u x0 n).samples.getLastD x0) := by
  constructor
  · intro i h
    simp only [acceptRule, not_or] at h
    have hrun : metropolisRun p q u x0 (i + 1) =
        metropolisStep p (u i) (q i) (metropolisRun p q u x0 i) := rfl
    rw [hrun]
    unfold metropolisStep
    rw [if_neg h.1, if_neg h.2]
    exact ⟨rfl, rfl, rfl⟩
  · intro n
    induction n with
    | zero => rfl
    | succ k ih =>
      have hrun : metropolisRun p q u x0 (k + 1) =
          metropolisStep p (u k) (q k) (metropolisRun p q u x0 k) := rfl
      rw [hrun]
      unfold metropolisStep
      split_ifs
      · exact (getLastD_snoc _ _ _).symm
      · exact (getLastD_snoc _ _ _).symm
      · exact ih

/-- C6: when every proposal offset is the zero vector, every draw is below 1
and the density is positive at the start, every candidate equals the current
position, the acceptance fraction is 1, and every iteration accepts: after n
iterations the accepted list holds n copies of the initial position and the
rejected list is empty. -/
theorem metropolis_zero_proposal (p : α → ℚ) (q : ℕ → α) (u : ℕ → ℚ) (x0 : α)
    (hq : ∀ i, q i = 0) (hu : ∀ i, u i < 1) (hp : 0 < p x0) (n : ℕ) :
    (metropolisRun p q u x0 n).x = x0 ∧
    (metropolisRun p q u x0 n).x + q n = (metropolisRun p q u x0 n).x ∧
    p ((metropolisRun p q u x0 n).x + q n) / p ((metropolisRun p q u x0 n).x) = 1 ∧
    (metropolisRun p q u x0 n).samples.length = n ∧
    (∀ y ∈ (metropolisRun p q u x0 n).samples, y = x0) ∧
    (metropolisRun p q u x0 n).rejected = [] := by
  induction n with
  | zero =>
    refine ⟨rfl, ?_, ?_, rfl, ?_, rfl⟩
    · rw [hq 0, add_zero]
    · rw [hq 0, add_zero]
      exact div_self hp.ne'
    · intro y hy
      exact absurd hy (List.not_mem_nil y)
  | succ k ih =>
    obtain ⟨hx, hxq, hr, hl, hmem, hrej⟩ := ih
    have hrun : metropolisRun p q u x0 (k + 1) =
        metropolisStep p (u k) (q k) (metropolisRun p q u x0 k) := rfl
    have hc1 : ¬ (p ((metropolisRun p q u x0 k).x + q k) >
        p (metropolisRun p q u x0 k).x) := by
      rw [hxq]
      exact lt_irrefl _
    have hpk : p (metropolisRun p q u x0 k).x ≠ 0 := by
      rw [hx]
      exact hp.ne'
    have hc2 : u k < p ((metropolisRun p q u x0 k).x + q k) /
        p (metropolisRun p q u x0 k).x := by
      rw [hxq, div_self hpk]
      exact hu k
    rw [hrun]
    unfold metropolisStep
    rw [if_neg hc1, if_pos hc2]
    have hxc : (metropolisRun p q u x0 k).x + q k = x0 := by rw [hxq, hx]
    refine ⟨hxc, ?_, ?_, ?_, ?_, hrej⟩
    · show (metropolisRun p q u x0 k).x + q k + q (k + 1) = _
      rw [hxc, hq (k + 1), add_zero]
    · show p ((metropolisRun p q u x0 k).x + q k + q (k + 1)) / _ = 1
      rw [hxc, hq (k + 1), add_zero, div_self hp.ne']
    · show ((metropolisRun p q u x0 k).samples ++
        [(metropolisRun p q u x0 k).x + q k]).length = k + 1
      rw [List.length_append, hl, List.length_cons, List.length_nil]
    · intro y hy
      rcases List.mem_append.mp hy with hy1 | hy2
      · exact hmem y hy1
      · rw [List.mem_singleton.mp hy2, hxc]

end MetropolisTheorems

/-! Witness instantiations -/

/-- Witness for the amended count-matrix claim, at a concrete off-diagonal
cell of the "aa" count matrix. -/
theorem learn_bigram_count_indexing_witness :
    ¬ ((2 : ℤ) = 1 ∧ (0 : ℤ) = 1) ∧ (learn_bigram [97, 97]).2 2 0 = 0 :=
  ⟨by decide, learn_bigram_count_indexing.2.2 2 0 (by decide)⟩

/-- Witness for the numerify characterization, on the text "Hi !" and on a
concrete whitespace byte and letter byte. -/
theorem numerify_filter_map_witness :
    numerify [72, 105, 33, 32] =
      (([72, 105, 33, 32] : List ℕ).filter (fun c => isalpha c || isspace c)).map
        specIndex ∧
    isspace 32 = true ∧ specIndex 32 = 0 ∧
    isalpha 66 = true ∧ (1 ≤ specIndex 66 ∧ specIndex 66 ≤ 26) :=
  ⟨(numerify_filter_map [72, 105, 33, 32]).1, by decide,
    (numerify_filter_map []).2.1 32 (by decide), by decide,
    (numerify_filter_map []).2.2 66 (by decide)⟩

/-- Witness for the index-range claim, on the ASCII text "hi ". -/
theorem numerify_indices_in_range_witness :
    (∀ c ∈ ([104, 105, 32] : List ℕ), c < 128) ∧
    ((8 : ℤ) ∈ numerify [104, 105, 32] ∧ (0 ≤ (8 : ℤ) ∧ (8 : ℤ) ≤ 26)) ∧
    (((8 : ℤ), (9 : ℤ)) ∈ pairsOf (numerify [104, 105, 32]) ∧
      ((0 ≤ (8 : ℤ) ∧ (8 : ℤ) ≤ 26) ∧ (0 ≤ (9 : ℤ) ∧ (9 : ℤ) ≤ 26))) := by
  have hascii : ∀ c ∈ ([104, 105, 32] : List ℕ), c < 128 := by decide
  have hth := numerify_indices_in_range [104, 105, 32] hascii
  exact ⟨hascii, ⟨by decide, hth.1 8 (by decide)⟩,
    ⟨by decide, hth.2 (8, 9) (by decide)⟩⟩

/-- Witness for the short-input claim, on the one-letter text "a" and the
all-zero model matrix. -/
theorem learn_bigram_short_input_witness :
    (numerify [97]).length < 2 ∧
    (learn_bigram [97]).2 3 5 = 0 ∧
    log_likelihood_bigram [97] (fun _ _ => 0) = 0 := by
  have h : (numerify [97]).length < 2 := by decide
  have hth := learn_bigram_short_input [97] (fun _ _ => 0) h
  exact ⟨h, hth.1 3 5, hth.2⟩

/-- Witness for the log-likelihood finiteness claim, on the text "aa" and the
all-zero model matrix. -/
theorem log_likelihood_finite_witness :
    (∀ i j : ℤ, (0 : ℝ) ≤ (fun _ _ : ℤ => (0 : ℝ)) i j) ∧
    ((1 : ℤ), (1 : ℤ)) ∈ pairsOf (numerify [97, 97]) ∧
    (0 : ℝ) < (fun _ _ : ℤ => (0 : ℝ)) (1 : ℤ) (1 : ℤ) + epsLog ∧
    ((pairsOf (numerify [97, 97])).length : ℝ) * Real.log epsLog ≤
      log_likelihood_bigram [97, 97] (fun _ _ => 0) := by
  have hB : ∀ i j : ℤ, (0 : ℝ) ≤ (fun _ _ : ℤ => (0 : ℝ)) i j := fun i j => le_refl 0
  have hmem : ((1 : ℤ), (1 : ℤ)) ∈ pairsOf (numerify [97, 97]) := by decide
  have hth := log_likelihood_finite [97, 97] (fun _ _ => 0) hB
  exact ⟨hB, hmem, hth.1 (1, 1) hmem, hth.2⟩

/-- Witness for the acceptance-rule claim, at iteration 0 of a run with
constant density 1, zero offsets and zero draws: the candidate is accepted. -/
theorem metropolis_accept_rule_witness :
    (∀ z : ℚ, 0 < (fun _ : ℚ => (1 : ℚ)) z) ∧
    acceptRule (fun _ : ℚ => (1 : ℚ)) (0 : ℚ) 0 (0 + 0) ∧
    metropolisRun (fun _ : ℚ => (1 : ℚ)) (fun _ => (0 : ℚ)) (fun _ => (0 : ℚ)) 0 1 =
      ⟨(0 : ℚ) + 0, [(0 : ℚ) + 0], []⟩ := by
  have hpos : ∀ z : ℚ, 0 < (fun _ : ℚ => (1 : ℚ)) z := fun z => one_pos
  have hacc : acceptRule (fun _ : ℚ => (1 : ℚ)) (0 : ℚ) 0 (0 + 0) :=
    Or.inr (by norm_num)
  exact ⟨hpos, hacc,
    (metropolis_accept_rule (fun _ : ℚ => (1 : ℚ)) (fun _ => (0 : ℚ))
      (fun _ => (0 : ℚ)) 0 hpos 0).1 hacc⟩

/-- Witness for the current-position invariant, with a draw of 2 that forces a
rejection at iteration 0, and the invariant checked after two iterations. -/
theorem metropolis_position_invariant_witness :
    ¬ acceptRule (fun _ : ℚ => (1 : ℚ)) (0 : ℚ) 2 (0 + 0) ∧
    (metropolisRun (fun _ : ℚ => (1 : ℚ)) (fun _ => (0 : ℚ)) (fun _ => (2 : ℚ)) 0 1).x
      = (0 : ℚ) ∧
    (metropolisRun (fun _ : ℚ => (1 : ℚ)) (fun _ => (0 : ℚ)) (fun _ => (2 : ℚ)) 0 2).x
      = (metropolisRun (fun _ : ℚ => (1 : ℚ)) (fun _ => (0 : ℚ)) (fun _ => (2 : ℚ))
          0 2).samples.getLastD 0 := by
  have hrej : ¬ acceptRule (fun _ : ℚ => (1 : ℚ)) (0 : ℚ) 2 (0 + 0) := by
    intro h
    rcases h with h | h <;> norm_num at h
  refine ⟨hrej, ?_,
    (metropolis_position_invariant (fun _ : ℚ => (1 : ℚ)) (fun _ => (0 : ℚ))
      (fun _ => (2 : ℚ)) 0).2 2⟩
  exact ((metropolis_position_invariant (fun _ : ℚ => (1 : ℚ)) (fun _ => (0 : ℚ))
    (fun _ => (2 : ℚ)) 0).1 0 hrej).1

/-- Witness for the zero-proposal claim after two iterations, with constant
density 1 and zero draws. -/
theorem metropolis_zero_proposal_witness :
    (∀ i : ℕ, (fun _ : ℕ => (0 : ℚ)) i = 0) ∧
    (∀ i : ℕ, (fun _ : ℕ => (0 : ℚ)) i < 1) ∧
    (0 : ℚ) < 1 ∧
    (metropolisRun (fun _ : ℚ => (1 : ℚ)) (fun _ => (0 : ℚ)) (fun _ => (0 : ℚ))
      0 2).samples.length = 2 ∧
    (metropolisRun (fun _ : ℚ => (1 : ℚ)) (fun _ => (0 : ℚ)) (fun _ => (0 : ℚ))
      0 2).rejected = [] := by
  have h := metropolis_zero_proposal (fun _ : ℚ => (1 : ℚ)) (fun _ => (0 : ℚ))
    (fun _ => (0 : ℚ)) 0 (fun i => rfl) (fun i => by norm_num) one_pos 2
  exact ⟨fun i => rfl, fun i => by norm_num, one_pos, h.2.2.2.1, h.2.2.2.2.2⟩
